import Mathlib

/-!
Verification of the data-processing core of `project3.py`.

The file shallowly embeds the three analyzers (`process_airtravel`,
`process_posts`, `process_text_report`) and the export writers of the
repository into Lean and proves/refutes the frozen claims about them.

Modelling conventions:
* Python `dict`s are association lists in insertion order with unique keys
  (uniqueness appears as a hypothesis where a theorem needs it).
* Python `str.strip`, `str.isdigit`, `str.lower` and the `[a-zA-Z']+`
  tokenizer pattern are modelled on ASCII, which is the fragment the
  data of the program exercises.
* Python `float` arithmetic in `round(mean(vals), 2)` is modelled by exact
  rational arithmetic with round-half-to-even (the rounding mode of Python).
* A Python function that can raise returns `Option`, with `none` for the
  raising executions.
-/

/-- ASCII whitespace characters removed by Python `str.strip()`. -/
def pyIsSpace (c : Char) : Bool :=
  c == ' ' || c == '\t' || c == '\n' || c == '\r' ||
    c == Char.ofNat 11 || c == Char.ofNat 12

/-- Model of Python `str.strip()`: remove whitespace from both ends. -/
def pyStrip (s : String) : String :=
  String.mk (((s.toList.dropWhile pyIsSpace).reverse.dropWhile pyIsSpace).reverse)

/-- Decimal-digit test for a single character. -/
def isDigitChar (c : Char) : Bool := 48 ≤ c.toNat && c.toNat ≤ 57

/-- Model of Python `str.isdigit()` on the decimal fragment: non-empty and
all characters are decimal digits. -/
def pyIsDigits (s : String) : Bool := !s.toList.isEmpty && s.toList.all isDigitChar

/-- Model of Python `int()` applied to an all-digits string. -/
def parseNat (s : String) : ℕ := s.toList.foldl (fun n c => 10 * n + (c.toNat - 48)) 0

/-- Model of Python `str.lower()` (ASCII fragment). -/
def strLower (s : String) : String := String.mk (s.toList.map Char.toLower)

/-- First-match association-list lookup: Python `dict` access on a dict
represented as its (insertion-ordered) item list. -/
def lookupA {β : Type} (k : String) : List (String × β) → Option β
  | [] => Option.none
  | (k2, v) :: rest => if k2 = k then some v else lookupA k rest

/-- A CSV row, i.e. one Python `dict` produced by `csv.DictReader`:
column name to raw string value, in column order. -/
abbrev Row := List (String × String)

/-- Model of Python `row.get(k, d)`. -/
def rowGetD (row : Row) (k d : String) : String := (lookupA k row).getD d

/-- `years = [y for y in rows[0].keys() if y.lower() != "month"]`:
the numeric-column labels, read off the first row. -/
def yearsOf : List Row → List String
  | [] => []
  | r0 :: _ => (r0.map Prod.fst).filter (fun k => strLower k ≠ "month")

/-- The per-column record built by `process_airtravel`. -/
structure YearStats where
  months_counted : ℕ
  total_passengers : ℕ
  avg_per_month : ℚ
deriving DecidableEq, Repr

/-- Round a rational to the nearest integer, ties to even (Python `round`). -/
def roundHalfEven (q : ℚ) : ℤ :=
  let f : ℤ := q.floor
  if q - f < 1/2 then f
  else if 1/2 < q - f then f + 1
  else if f % 2 = 0 then f else f + 1

/-- Model of Python `round(x, 2)` on exact rationals. -/
def round2 (q : ℚ) : ℚ := (roundHalfEven (q * 100) : ℚ) / 100

/-- Model of `statistics.mean` on a list of naturals (exact value). -/
def meanQ (l : List ℕ) : ℚ := (l.sum : ℚ) / (l.length : ℚ)

/-- The summary record built for one year from its collected values:
`{"months_counted": len(vals), "total_passengers": sum(vals),
  "avg_per_month": round(mean(vals), 2) if vals else 0.0}`. -/
def mkYearStats (vals : List ℕ) : YearStats :=
  { months_counted := vals.length
    total_passengers := vals.sum
    avg_per_month := if vals.isEmpty then 0 else round2 (meanQ vals) }

/-- `per_year_values[y].append(v)` on a `defaultdict(list)` held as an
insertion-ordered association list: a fresh key is created at the end. -/
def upsertVal (y : String) (v : ℕ) : List (String × List ℕ) → List (String × List ℕ)
  | [] => [(y, [v])]
  | (k, vs) :: rest => if k = y then (k, vs ++ [v]) :: rest else (k, vs) :: upsertVal y v rest

/-- Body of the inner loop of `process_airtravel`: strip the cell of column
`y`, and append its parsed value when it is all digits. -/
def stepYear (row : Row) (acc : List (String × List ℕ)) (y : String) :
    List (String × List ℕ) :=
  let val := pyStrip (rowGetD row y "")
  if pyIsDigits val then upsertVal y (parseNat val) acc else acc

/-- One iteration of the outer loop: process every numeric column of `row`. -/
def collectRow (years : List String) (row : Row) (acc : List (String × List ℕ)) :
    List (String × List ℕ) :=
  years.foldl (stepYear row) acc

/-- The fully populated `per_year_values` after both loops. -/
def collectVals (rows : List Row) (years : List String) : List (String × List ℕ) :=
  rows.foldl (fun acc row => collectRow years row acc) []

/-- Model of `process_airtravel`.  `rows[0]` raises `IndexError` on an empty
list, which the embedding renders as `none`; otherwise the summary maps each
key of `per_year_values` (in insertion order) to its `YearStats`. -/
def process_airtravel (rows : List Row) : Option (List (String × YearStats)) :=
  match rows with
  | [] => Option.none
  | _ :: _ => some ((collectVals rows (yearsOf rows)).map (fun p => (p.1, mkYearStats p.2)))

/-- The digit-valued cells of column `y`, in row order: exactly the values
`process_airtravel` collects for `y`. -/
def digitVals (y : String) (rows : List Row) : List ℕ :=
  rows.filterMap (fun row =>
    let val := pyStrip (rowGetD row y "")
    if pyIsDigits val then some (parseNat val) else Option.none)

/-- A character matched by the tokenizer pattern `[a-zA-Z']+`. -/
def isWordChar (c : Char) : Bool :=
  (97 ≤ c.toNat && c.toNat ≤ 122) || (65 ≤ c.toNat && c.toNat ≤ 90) || c.toNat == 39

/-- Split a character stream into the maximal runs of word characters,
accumulating the current run in reverse: `re.findall` of `[a-zA-Z']+`. -/
def findWordsAux : List Char → List Char → List String
  | [], run => if run.isEmpty then [] else [String.mk run.reverse]
  | c :: cs, run =>
    if isWordChar c then findWordsAux cs (c :: run)
    else if run.isEmpty then findWordsAux cs []
    else String.mk run.reverse :: findWordsAux cs []

/-- Model of `tokenize`: lowercase, then all `[a-zA-Z']+` matches in order. -/
def tokenize (text : String) : List String :=
  findWordsAux (text.toList.map Char.toLower) []

/-- The distinct elements of a list in first-occurrence order, skipping the
ones already in `seen`: the key order of a Python `Counter`. -/
def firstOccsAux {α : Type} [DecidableEq α] (seen : List α) : List α → List α
  | [] => []
  | x :: t => if x ∈ seen then firstOccsAux seen t else x :: firstOccsAux (x :: seen) t

/-- The distinct elements of `l` in first-occurrence order. -/
def firstOccs {α : Type} [DecidableEq α] (l : List α) : List α := firstOccsAux [] l

/-- Model of `Counter(l)` as its item list: keys in first-occurrence
(insertion) order, each with its multiplicity in `l`. -/
def counterList {α : Type} [DecidableEq α] (l : List α) : List (α × ℕ) :=
  (firstOccs l).map (fun a => (a, l.count a))

/-- Index of the first occurrence of `a` in a list (length of the list if
`a` does not occur). -/
def idxOf {α : Type} [DecidableEq α] (a : α) : List α → ℕ
  | [] => 0
  | b :: l => if b = a then 0 else idxOf a l + 1

/-- Pair every element with its position, starting at `i`. -/
def idxed {α : Type} : List α → ℕ → List (α × ℕ)
  | [], _ => []
  | a :: l, i => (a, i) :: idxed l (i + 1)

/-- Insert `x` in front of the first element `y` with `le x y`. -/
def insertLe {α : Type} (le : α → α → Bool) (x : α) : List α → List α
  | [] => [x]
  | y :: l => if le x y then x :: y :: l else y :: insertLe le x l

/-- Insertion sort by the comparator `le` (a stable sort). -/
def sortLe {α : Type} (le : α → α → Bool) : List α → List α
  | [] => []
  | a :: l => insertLe le a (sortLe le l)

/-- Comparator realising `Counter.most_common`: count descending, ties by
first-insertion index ascending (`most_common` is documented to be the
stable descending sort of the item list, which equals sorting the
index-decorated items by `(-count, index)`). -/
def leMC (p q : (String × ℕ) × ℕ) : Bool :=
  decide (q.1.2 < p.1.2) || (decide (p.1.2 = q.1.2) && decide (p.2 ≤ q.2))

/-- Model of `Counter(l).most_common(n)`. -/
def mostCommon (n : ℕ) (l : List String) : List (String × ℕ) :=
  ((sortLe leMC (idxed (counterList l) 0)).map Prod.fst).take n

/-- One JSON post record; `userId`, `title`, `body` are absent when the
record lacks the field (Python `p.get(...)` then yields the default). -/
structure Post where
  userId : Option ℤ
  title : Option String
  body : Option String
deriving DecidableEq, Repr

/-- The summary dict built by `process_posts`. -/
structure PostsSummary where
  post_count : ℕ
  posts_per_user : List (Option ℤ × ℕ)
  top_words : List (String × ℕ)
deriving DecidableEq, Repr

/-- `p.get("title", "") + " " + p.get("body", "")`. -/
def postText (p : Post) : String := p.title.getD "" ++ " " ++ p.body.getD ""

/-- Model of `" ".join(parts)`. -/
def joinSpace : List String → String
  | [] => ""
  | [s] => s
  | s :: rest => s ++ " " ++ joinSpace rest

/-- The blob `all_text` concatenated by `process_posts`. -/
def postsAllText (posts : List Post) : String := joinSpace (posts.map postText)

/-- Model of `process_posts`. -/
def process_posts (posts : List Post) : PostsSummary :=
  { post_count := posts.length
    posts_per_user := counterList (posts.map Post.userId)
    top_words := mostCommon 15
      ((tokenize (postsAllText posts)).filter (fun w => 3 < w.length)) }

/-- The metrics dict built by `process_text_report`. -/
structure TextMetrics where
  characters : ℕ
  word_count : ℕ
  top_words : List (String × ℕ)
deriving DecidableEq, Repr

/-- Model of `process_text_report`. -/
def process_text_report (text : String) : TextMetrics :=
  { characters := text.length
    word_count := (tokenize text).length
    top_words := mostCommon 20 ((tokenize text).filter (fun w => 4 < w.length)) }

/-- A spreadsheet/CSV cell value (the writers emit strings and numbers). -/
inductive Cell where
  | s (v : String)
  | n (v : ℕ)
  | q (v : ℚ)
deriving DecidableEq, Repr

/-- The header written by `write_csv_yearly_totals`. -/
def csvHeader : List Cell :=
  [Cell.s "year", Cell.s "months_counted", Cell.s "total_passengers", Cell.s "avg_per_month"]

/-- The cells of one data row of the CSV writer, in `fieldnames` order. -/
def csvRowOf (p : String × YearStats) : List Cell :=
  [Cell.s p.1, Cell.n p.2.months_counted, Cell.n p.2.total_passengers, Cell.q p.2.avg_per_month]

/-- Model of `write_csv_yearly_totals`: the sequence of records written to
the file (header, then one row per summary item in iteration order). -/
def write_csv_yearly_totals (summary : List (String × YearStats)) : List (List Cell) :=
  csvHeader :: summary.map csvRowOf

/-- One worksheet: its title and the appended rows. -/
structure Sheet where
  title : String
  rows : List (List Cell)
deriving DecidableEq, Repr

/-- `sorted(summary.items())` comparator: Python compares the tuples by
their first component, the year label (keys are unique). -/
def leYear (a b : String × YearStats) : Bool := decide (a.1 ≤ b.1)

/-- `sorted(..., key=lambda kv: kv[1]["total_passengers"], reverse=True)`. -/
def leTotalDesc (a b : String × YearStats) : Bool :=
  decide (b.2.total_passengers ≤ a.2.total_passengers)

/-- Header of the first worksheet. -/
def excelHeader1 : List Cell :=
  [Cell.s "Year", Cell.s "Months Counted", Cell.s "Total Passengers", Cell.s "Avg Per Month"]

/-- Header of the second worksheet. -/
def excelHeader2 : List Cell := [Cell.s "Year", Cell.s "Total Passengers"]

/-- The cells of one data row of sheet 1. -/
def excelRow1 (p : String × YearStats) : List Cell :=
  [Cell.s p.1, Cell.n p.2.months_counted, Cell.n p.2.total_passengers, Cell.q p.2.avg_per_month]

/-- The cells of one data row of sheet 2. -/
def excelRow2 (p : String × YearStats) : List Cell :=
  [Cell.s p.1, Cell.n p.2.total_passengers]

/-- Model of `write_excel`: the two worksheets of the produced workbook. -/
def write_excel (summary : List (String × YearStats)) : Sheet × Sheet :=
  ({ title := "AirTravel Summary"
     rows := excelHeader1 :: (sortLe leYear summary).map excelRow1 },
   { title := "Totals Ranking"
     rows := excelHeader2 :: (sortLe leTotalDesc summary).map excelRow2 })

mutual
/-- A Python value reachable by the JSON pipeline: ints, strings, `None`,
lists and (insertion-ordered) dicts.  `PyList`/`PyDict` inline the spine so
that all recursions below are plain structural recursions. -/
inductive PyVal where
  | pint (n : ℤ)
  | pstr (s : String)
  | pnone
  | plist (l : PyList)
  | pdict (d : PyDict)
inductive PyList where
  | nil
  | cons (v : PyVal) (tl : PyList)
inductive PyDict where
  | nil
  | cons (k : PyVal) (v : PyVal) (tl : PyDict)
end

/-- How `json.dump` renders a dict key: strings stay, ints and `None` are
coerced to their JSON text; other key types raise `TypeError`. -/
def keyStr : PyVal → Option String
  | .pint n => some (toString n)
  | .pstr s => some s
  | .pnone => some "null"
  | _ => Option.none

mutual
/-- Model of `json.dump` to a file followed by `json.loads` of that file:
values survive unchanged except that every dict key is replaced by the
string `json.dump` wrote for it; a non-serializable key yields `none`
(a raised `TypeError`). -/
def dumpLoad : PyVal → Option PyVal
  | .pint n => some (.pint n)
  | .pstr s => some (.pstr s)
  | .pnone => some .pnone
  | .plist l =>
    match dumpLoadList l with
    | some l2 => some (.plist l2)
    | Option.none => Option.none
  | .pdict d =>
    match dumpLoadDict d with
    | some d2 => some (.pdict d2)
    | Option.none => Option.none
def dumpLoadList : PyList → Option PyList
  | .nil => some .nil
  | .cons v tl =>
    match dumpLoad v, dumpLoadList tl with
    | some v2, some tl2 => some (.cons v2 tl2)
    | _, _ => Option.none
def dumpLoadDict : PyDict → Option PyDict
  | .nil => some .nil
  | .cons k v tl =>
    match keyStr k, dumpLoad v, dumpLoadDict tl with
    | some s2, some v2, some tl2 => some (.cons (.pstr s2) v2 tl2)
    | _, _, _ => Option.none
end

/-- Python `==` on dict keys (keys are hashable primitives; values of
distinct primitive types never compare equal). -/
def keyEq : PyVal → PyVal → Bool
  | .pint a, .pint b => a == b
  | .pstr a, .pstr b => a == b
  | .pnone, .pnone => true
  | _, _ => false

/-- Number of entries of a dict. -/
def pyDictLen : PyDict → ℕ
  | .nil => 0
  | .cons _ _ tl => pyDictLen tl + 1

/-- Dict lookup by Python key equality. -/
def pyFind (k : PyVal) : PyDict → Option PyVal
  | .nil => Option.none
  | .cons k2 v2 tl => if keyEq k k2 then some v2 else pyFind k tl

mutual
/-- Model of Python `==` on JSON-shaped values: lists compare pointwise in
order, dicts compare by key set and per-key values (key order aside),
which is the "equal structure, key order aside" of the round-trip claim. -/
def pyEq : PyVal → PyVal → Bool
  | .pint a, .pint b => a == b
  | .pstr a, .pstr b => a == b
  | .pnone, .pnone => true
  | .plist a, .plist b => pyEqList a b
  | .pdict a, .pdict b => pyDictLen a == pyDictLen b && pyDictSub a b
  | _, _ => false
def pyEqList : PyList → PyList → Bool
  | .nil, .nil => true
  | .cons a tl1, .cons b tl2 => pyEq a b && pyEqList tl1 tl2
  | _, _ => false
def pyDictSub : PyDict → PyDict → Bool
  | .nil, _ => true
  | .cons k v tl, d2 =>
    (match pyFind k d2 with
     | some v2 => pyEq v v2
     | Option.none => false) && pyDictSub tl d2
end

/-- The Python value of one `posts_per_user` key (a `userId` or `None`). -/
def pyOfUser : Option ℤ → PyVal
  | Option.none => .pnone
  | some n => .pint n

/-- The string `json.dump` writes for one `posts_per_user` key. -/
def userKeyStr : Option ℤ → String
  | Option.none => "null"
  | some n => toString n

/-- The `posts_per_user` dict as a Python value (original keys). -/
def perUserPy : List (Option ℤ × ℕ) → PyDict
  | [] => .nil
  | (u, c) :: rest => .cons (pyOfUser u) (.pint c) (perUserPy rest)

/-- The `posts_per_user` dict after the JSON round trip (stringified keys). -/
def perUserPyStr : List (Option ℤ × ℕ) → PyDict
  | [] => .nil
  | (u, c) :: rest => .cons (.pstr (userKeyStr u)) (.pint c) (perUserPyStr rest)

/-- The `top_words` list of `{"word": w, "count": c}` dicts as a Python value. -/
def topWordsPy : List (String × ℕ) → PyList
  | [] => .nil
  | (w, c) :: rest =>
    .cons (.pdict (.cons (.pstr "word") (.pstr w)
      (.cons (.pstr "count") (.pint (c : ℤ)) .nil))) (topWordsPy rest)

/-- The summary dict handed to `write_json`, as a Python value. -/
def pySummaryOf (s : PostsSummary) : PyVal :=
  .pdict (.cons (.pstr "post_count") (.pint (s.post_count : ℤ))
    (.cons (.pstr "posts_per_user") (.pdict (perUserPy s.posts_per_user))
      (.cons (.pstr "top_words") (.plist (topWordsPy s.top_words)) .nil)))

/-- The same summary with every `posts_per_user` key replaced by the string
`json.dump` writes for it: the value `json.loads` actually returns. -/
def pySummaryStrKeys (s : PostsSummary) : PyVal :=
  .pdict (.cons (.pstr "post_count") (.pint (s.post_count : ℤ))
    (.cons (.pstr "posts_per_user") (.pdict (perUserPyStr s.posts_per_user))
      (.cons (.pstr "top_words") (.plist (topWordsPy s.top_words)) .nil)))

/-- A one-row table whose single numeric column `1958` holds no digits. -/
def rowsNoDigit : List Row := [[("Month", "JAN"), ("1958", "x")]]

/-- A one-row table with one digit column `1959` and one digit-free
column `1960`. -/
def rowsMixed : List Row := [[("Month", "JAN"), ("1959", "7"), ("1960", "x")]]

/-- A one-row table whose numeric column `1958` holds the value 340. -/
def rowsOne : List Row := [[("Month", "JAN"), ("1958", "340")]]

/-- A single post whose author id 1 becomes an integer dict key. -/
def postsOne : List Post := [{ userId := some 1, title := some "", body := some "" }]

theorem lookupA_upsertVal_self (y : String) (v : ℕ) (acc : List (String × List ℕ)) :
    lookupA y (upsertVal y v acc) = some ((lookupA y acc).getD [] ++ [v]) := by
  induction acc with
  | nil => simp [upsertVal, lookupA]
  | cons p rest ih =>
    obtain ⟨k, vs⟩ := p
    by_cases h : k = y
    · subst h; simp [upsertVal, lookupA]
    · simp [upsertVal, lookupA, h, ih]

theorem lookupA_upsertVal_ne (y2 y : String) (v : ℕ) (acc : List (String × List ℕ))
    (h : y ≠ y2) : lookupA y2 (upsertVal y v acc) = lookupA y2 acc := by
  induction acc with
  | nil => simp [upsertVal, lookupA, h]
  | cons p rest ih =>
    obtain ⟨k, vs⟩ := p
    by_cases hk : k = y
    · subst hk; simp [upsertVal, lookupA, h]
    · simp [upsertVal, lookupA, hk, ih]

theorem lookupA_stepYear_ne (row : Row) (acc : List (String × List ℕ)) (y y2 : String)
    (h : y ≠ y2) : lookupA y2 (stepYear row acc y) = lookupA y2 acc := by
  by_cases hd : pyIsDigits (pyStrip (rowGetD row y "")) = true
  · simp only [stepYear]
    rw [if_pos hd]
    exact lookupA_upsertVal_ne y2 y _ acc h
  · simp only [stepYear]
    rw [if_neg hd]

theorem lookupA_foldl_years_nmem (row : Row) (ys : List String) (y : String)
    (acc : List (String × List ℕ)) (h : y ∉ ys) :
    lookupA y (ys.foldl (stepYear row) acc) = lookupA y acc := by
  induction ys generalizing acc with
  | nil => rfl
  | cons a t ih =>
    simp only [List.foldl_cons]
    rw [ih _ (fun hm => h (List.mem_cons_of_mem _ hm))]
    exact lookupA_stepYear_ne row acc a y (fun he => h (he ▸ List.mem_cons_self a t))

theorem lookupA_stepYear_self (row : Row) (acc : List (String × List ℕ)) (y : String) :
    lookupA y (stepYear row acc y) =
      if pyIsDigits (pyStrip (rowGetD row y "")) then
        some ((lookupA y acc).getD [] ++ [parseNat (pyStrip (rowGetD row y ""))])
      else lookupA y acc := by
  by_cases hd : pyIsDigits (pyStrip (rowGetD row y "")) = true
  · simp only [stepYear]
    rw [if_pos hd, lookupA_upsertVal_self, if_pos hd]
  · simp only [stepYear]
    rw [if_neg hd, if_neg hd]

theorem lookupA_collectRow (years : List String) (row : Row)
    (acc : List (String × List ℕ)) (y : String) (hy : y ∈ years) (hnd : years.Nodup) :
    lookupA y (collectRow years row acc) =
      if pyIsDigits (pyStrip (rowGetD row y "")) then
        some ((lookupA y acc).getD [] ++ [parseNat (pyStrip (rowGetD row y ""))])
      else lookupA y acc := by
  induction years generalizing acc with
  | nil => cases hy
  | cons a t ih =>
    rw [List.nodup_cons] at hnd
    unfold collectRow
    simp only [List.foldl_cons]
    by_cases hya : y = a
    · subst hya
      rw [lookupA_foldl_years_nmem row t y _ hnd.1]
      exact lookupA_stepYear_self row acc y
    · have hyt : y ∈ t := List.mem_of_ne_of_mem hya hy
      have h2 := ih (stepYear row acc a) hyt hnd.2
      unfold collectRow at h2
      rw [h2, lookupA_stepYear_ne row acc a y (fun he => hya he.symm)]

theorem lookupA_rows_foldl (years : List String) (y : String) (hy : y ∈ years)
    (hnd : years.Nodup) (rows : List Row) (acc : List (String × List ℕ)) :
    lookupA y (rows.foldl (fun acc row => collectRow years row acc) acc) =
      if (digitVals y rows).isEmpty then lookupA y acc
      else some ((lookupA y acc).getD [] ++ digitVals y rows) := by
  induction rows generalizing acc with
  | nil => simp [digitVals]
  | cons r rs ih =>
    simp only [List.foldl_cons]
    rw [ih (collectRow years r acc), lookupA_collectRow years r acc y hy hnd]
    by_cases hd : pyIsDigits (pyStrip (rowGetD r y "")) = true
    · rw [if_pos hd]
      have hdv : digitVals y (r :: rs) =
          parseNat (pyStrip (rowGetD r y "")) :: digitVals y rs := by
        simp [digitVals, List.filterMap_cons, hd]
      rw [hdv]
      simp only [List.isEmpty_cons, Bool.false_eq_true, if_false]
      by_cases he : (digitVals y rs).isEmpty = true
      · rw [if_pos he, List.isEmpty_iff.mp he]
      · rw [if_neg he]
        simp only [Option.getD_some]
        rw [List.append_assoc]
        rfl
    · have hd2 : pyIsDigits (pyStrip (rowGetD r y "")) = false := by simpa using hd
      rw [if_neg hd]
      have hdv : digitVals y (r :: rs) = digitVals y rs := by
        simp [digitVals, List.filterMap_cons, hd2]
      rw [hdv]

theorem lookupA_collectVals (rows : List Row) (years : List String) (y : String)
    (hy : y ∈ years) (hnd : years.Nodup) :
    lookupA y (collectVals rows years) =
      if (digitVals y rows).isEmpty then Option.none else some (digitVals y rows) := by
  unfold collectVals
  rw [lookupA_rows_foldl years y hy hnd rows []]
  simp [lookupA]

theorem lookupA_map_stats (y : String) (l : List (String × List ℕ)) :
    lookupA y (l.map (fun p => (p.1, mkYearStats p.2))) =
      (lookupA y l).map mkYearStats := by
  induction l with
  | nil => rfl
  | cons p rest ih =>
    obtain ⟨k, vs⟩ := p
    by_cases h : k = y
    · subst h; simp [lookupA]
    · simp [lookupA, h, ih]

theorem lookupA_collectRow_nodigit (years : List String) (row : Row)
    (acc : List (String × List ℕ)) (y : String)
    (h : pyIsDigits (pyStrip (rowGetD row y "")) = false) :
    lookupA y (collectRow years row acc) = lookupA y acc := by
  induction years generalizing acc with
  | nil => rfl
  | cons a t ih =>
    unfold collectRow
    simp only [List.foldl_cons]
    have step : lookupA y (stepYear row acc a) = lookupA y acc := by
      by_cases hya : y = a
      · subst hya
        simp only [stepYear]
        rw [if_neg (by simp [h])]
      · exact lookupA_stepYear_ne row acc a y (fun he => hya he.symm)
    have h2 := ih (stepYear row acc a)
    unfold collectRow at h2
    rw [h2, step]

theorem lookupA_collectVals_nodigit (rows : List Row) (years : List String) (y : String)
    (h : ∀ r ∈ rows, pyIsDigits (pyStrip (rowGetD r y "")) = false) :
    lookupA y (collectVals rows years) = Option.none := by
  unfold collectVals
  suffices H : ∀ acc, (∀ r ∈ rows, pyIsDigits (pyStrip (rowGetD r y "")) = false) →
      lookupA y (rows.foldl (fun acc row => collectRow years row acc) acc) = lookupA y acc by
    rw [H [] h]; rfl
  clear h
  induction rows with
  | nil => intro acc _; rfl
  | cons r rs ih =>
    intro acc hall
    simp only [List.foldl_cons]
    rw [ih _ (fun r2 hr2 => hall r2 (List.mem_cons_of_mem _ hr2))]
    exact lookupA_collectRow_nodigit years r acc y (hall r (List.mem_cons_self r rs))

theorem mem_upsertVal {p : String × List ℕ} {y : String} {v : ℕ}
    {acc : List (String × List ℕ)} (hp : p ∈ upsertVal y v acc) :
    (∃ vs, p = (y, vs ++ [v])) ∨ p ∈ acc := by
  induction acc with
  | nil =>
    simp only [upsertVal, List.mem_singleton] at hp
    exact Or.inl ⟨[], hp⟩
  | cons q rest ih =>
    obtain ⟨k, vs⟩ := q
    by_cases h : k = y
    · subst h
      simp only [upsertVal, eq_self_iff_true, if_true, List.mem_cons] at hp
      rcases hp with h1 | h1
      · exact Or.inl ⟨vs, h1⟩
      · exact Or.inr (List.mem_cons_of_mem _ h1)
    · simp only [upsertVal, h, if_false, List.mem_cons] at hp
      rcases hp with h1 | h1
      · exact Or.inr (h1 ▸ List.mem_cons_self _ _)
      · rcases ih h1 with h2 | h2
        · exact Or.inl h2
        · exact Or.inr (List.mem_cons_of_mem _ h2)

theorem mem_stepYear {p : String × List ℕ} {row : Row} {acc : List (String × List ℕ)}
    {y : String} (hp : p ∈ stepYear row acc y) :
    (p.1 = y ∧ p.2 ≠ [] ∧ pyIsDigits (pyStrip (rowGetD row y "")) = true) ∨ p ∈ acc := by
  by_cases hd : pyIsDigits (pyStrip (rowGetD row y "")) = true
  · simp only [stepYear, if_pos hd] at hp
    rcases mem_upsertVal hp with ⟨vs, hvs⟩ | h2
    · subst hvs
      exact Or.inl ⟨rfl, by simp, hd⟩
    · exact Or.inr h2
  · simp only [stepYear, if_neg hd] at hp
    exact Or.inr hp

theorem mem_collectRow {p : String × List ℕ} {years : List String} {row : Row}
    {acc : List (String × List ℕ)} (hp : p ∈ collectRow years row acc) :
    (p.1 ∈ years ∧ p.2 ≠ [] ∧ pyIsDigits (pyStrip (rowGetD row p.1 "")) = true) ∨ p ∈ acc := by
  induction years generalizing acc with
  | nil => exact Or.inr hp
  | cons a t ih =>
    unfold collectRow at hp
    simp only [List.foldl_cons] at hp
    rcases ih hp with ⟨h1, h2, h3⟩ | h4
    · exact Or.inl ⟨List.mem_cons_of_mem _ h1, h2, h3⟩
    · rcases mem_stepYear h4 with ⟨h1, h2, h3⟩ | h5
      · exact Or.inl ⟨h1 ▸ List.mem_cons_self a t, h2, h1 ▸ h3⟩
      · exact Or.inr h5

theorem mem_collectVals {p : String × List ℕ} {rows : List Row} {years : List String}
    (hp : p ∈ collectVals rows years) :
    p.1 ∈ years ∧ p.2 ≠ [] ∧ ∃ r ∈ rows, pyIsDigits (pyStrip (rowGetD r p.1 "")) = true := by
  unfold collectVals at hp
  suffices H : ∀ (rs : List Row), (∀ r ∈ rs, r ∈ rows) →
      ∀ (acc : List (String × List ℕ)),
      (∀ q ∈ acc, q.1 ∈ years ∧ q.2 ≠ [] ∧
        ∃ r ∈ rows, pyIsDigits (pyStrip (rowGetD r q.1 "")) = true) →
      ∀ q ∈ rs.foldl (fun acc row => collectRow years row acc) acc,
        q.1 ∈ years ∧ q.2 ≠ [] ∧
          ∃ r ∈ rows, pyIsDigits (pyStrip (rowGetD r q.1 "")) = true by
    exact H rows (fun r hr => hr) [] (by simp) p hp
  intro rs
  induction rs with
  | nil => intro _ acc hacc q hq; exact hacc q hq
  | cons r rs2 ih =>
    intro hsub acc hacc q hq
    simp only [List.foldl_cons] at hq
    refine ih (fun r2 hr2 => hsub r2 (List.mem_cons_of_mem _ hr2)) _ ?_ q hq
    intro q2 hq2
    rcases mem_collectRow hq2 with ⟨h1, h2, h3⟩ | h4
    · exact ⟨h1, h2, r, hsub r (List.mem_cons_self r rs2), h3⟩
    · exact hacc q2 h4

theorem mem_insertLe {α : Type} (le : α → α → Bool) (x : α) (l : List α) (a : α) :
    a ∈ insertLe le x l ↔ a = x ∨ a ∈ l := by
  induction l with
  | nil => simp [insertLe]
  | cons y t ih =>
    by_cases h : le x y = true
    · simp [insertLe, h, List.mem_cons]
    · simp only [insertLe, if_neg h, List.mem_cons, ih]
      tauto

theorem perm_insertLe {α : Type} (le : α → α → Bool) (x : α) (l : List α) :
    List.Perm (insertLe le x l) (x :: l) := by
  induction l with
  | nil => exact List.Perm.refl _
  | cons y t ih =>
    by_cases h : le x y = true
    · rw [insertLe, if_pos h]
    · rw [insertLe, if_neg h]
      exact List.Perm.trans (List.Perm.cons y ih) (List.Perm.swap x y t)

theorem perm_sortLe {α : Type} (le : α → α → Bool) (l : List α) :
    List.Perm (sortLe le l) l := by
  induction l with
  | nil => exact List.Perm.refl _
  | cons a t ih =>
    exact List.Perm.trans (perm_insertLe le a (sortLe le t)) (List.Perm.cons a ih)

theorem pairwise_insertLe {α : Type} {le : α → α → Bool}
    (htot : ∀ a b, le a b = true ∨ le b a = true)
    (htrans : ∀ a b c, le a b = true → le b c = true → le a c = true)
    {x : α} {l : List α} (hl : l.Pairwise (fun a b => le a b = true)) :
    (insertLe le x l).Pairwise (fun a b => le a b = true) := by
  induction l with
  | nil => simp [insertLe]
  | cons y t ih =>
    rw [List.pairwise_cons] at hl
    by_cases h : le x y = true
    · rw [insertLe, if_pos h]
      refine List.Pairwise.cons ?_ (List.Pairwise.cons hl.1 hl.2)
      intro b hb
      rcases List.mem_cons.mp hb with hb | hb
      · exact hb ▸ h
      · exact htrans x y b h (hl.1 b hb)
    · rw [insertLe, if_neg h]
      refine List.Pairwise.cons ?_ (ih hl.2)
      intro b hb
      rcases (mem_insertLe le x t b).mp hb with hb | hb
      · subst hb
        exact (htot y b).resolve_right (fun h2 => h h2)
      · exact hl.1 b hb

theorem pairwise_sortLe {α : Type} {le : α → α → Bool}
    (htot : ∀ a b, le a b = true ∨ le b a = true)
    (htrans : ∀ a b c, le a b = true → le b c = true → le a c = true)
    (l : List α) : (sortLe le l).Pairwise (fun a b => le a b = true) := by
  induction l with
  | nil => exact List.Pairwise.nil
  | cons a t ih => exact pairwise_insertLe htot htrans ih

theorem mem_firstOccsAux {α : Type} [DecidableEq α] (seen : List α) (t : List α) (a : α) :
    a ∈ firstOccsAux seen t ↔ a ∈ t ∧ a ∉ seen := by
  induction t generalizing seen with
  | nil => simp [firstOccsAux]
  | cons x t2 ih =>
    by_cases hx : x ∈ seen
    · rw [firstOccsAux, if_pos hx, ih]
      constructor
      · rintro ⟨h1, h2⟩
        exact ⟨List.mem_cons_of_mem _ h1, h2⟩
      · rintro ⟨h1, h2⟩
        rcases List.mem_cons.mp h1 with h1 | h1
        · exact absurd (h1 ▸ hx) h2
        · exact ⟨h1, h2⟩
    · rw [firstOccsAux, if_neg hx, List.mem_cons, ih]
      by_cases ha : a = x
      · subst ha
        simp [hx]
      · simp only [List.mem_cons, ha, false_or]

theorem nodup_firstOccsAux {α : Type} [DecidableEq α] (seen : List α) (t : List α) :
    (firstOccsAux seen t).Nodup := by
  induction t generalizing seen with
  | nil => simp [firstOccsAux]
  | cons x t2 ih =>
    by_cases hx : x ∈ seen
    · rw [firstOccsAux, if_pos hx]
      exact ih seen
    · rw [firstOccsAux, if_neg hx]
      refine List.nodup_cons.mpr ⟨?_, ih (x :: seen)⟩
      intro hmem
      exact ((mem_firstOccsAux (x :: seen) t2 x).mp hmem).2 (List.mem_cons_self x seen)

theorem idxOf_cons_self {α : Type} [DecidableEq α] (a : α) (l : List α) :
    idxOf a (a :: l) = 0 := by
  simp [idxOf]

theorem idxOf_cons_ne {α : Type} [DecidableEq α] {a b : α} (l : List α) (h : b ≠ a) :
    idxOf a (b :: l) = idxOf a l + 1 := by
  simp [idxOf, h]

theorem pairwise_idxOf_firstOccsAux {α : Type} [DecidableEq α] (seen : List α) (t : List α) :
    (firstOccsAux seen t).Pairwise (fun a b => idxOf a t < idxOf b t) := by
  induction t generalizing seen with
  | nil => simp [firstOccsAux]
  | cons x t2 ih =>
    by_cases hx : x ∈ seen
    · rw [firstOccsAux, if_pos hx]
      refine List.Pairwise.imp_of_mem ?_ (ih seen)
      intro a b ha hb hlt
      have ha2 := (mem_firstOccsAux seen t2 a).mp ha
      have hb2 := (mem_firstOccsAux seen t2 b).mp hb
      have hax : x ≠ a := fun he => ha2.2 (he ▸ hx)
      have hbx : x ≠ b := fun he => hb2.2 (he ▸ hx)
      rw [idxOf_cons_ne t2 hax, idxOf_cons_ne t2 hbx]
      omega
    · rw [firstOccsAux, if_neg hx]
      refine List.Pairwise.cons ?_ ?_
      · intro b hb
        have hb2 := (mem_firstOccsAux (x :: seen) t2 b).mp hb
        have hbx : x ≠ b := fun he => hb2.2 (he ▸ List.mem_cons_self x seen)
        rw [idxOf_cons_self, idxOf_cons_ne t2 hbx]
        omega
      · refine List.Pairwise.imp_of_mem ?_ (ih (x :: seen))
        intro a b ha hb hlt
        have ha2 := (mem_firstOccsAux (x :: seen) t2 a).mp ha
        have hb2 := (mem_firstOccsAux (x :: seen) t2 b).mp hb
        have hax : x ≠ a := fun he => ha2.2 (he ▸ List.mem_cons_self x seen)
        have hbx : x ≠ b := fun he => hb2.2 (he ▸ List.mem_cons_self x seen)
        rw [idxOf_cons_ne t2 hax, idxOf_cons_ne t2 hbx]
        omega

theorem idxed_map_fst {α : Type} (l : List α) (i : ℕ) : (idxed l i).map Prod.fst = l := by
  induction l generalizing i with
  | nil => rfl
  | cons a t ih => simp [idxed, ih]

theorem mem_idxed {α : Type} {l : List α} {i : ℕ} {p : α × ℕ} :
    p ∈ idxed l i ↔ ∃ j, ∃ hj : j < l.length, p.1 = l.get ⟨j, hj⟩ ∧ p.2 = i + j := by
  induction l generalizing i with
  | nil => simp [idxed]
  | cons a t ih =>
    simp only [idxed, List.mem_cons, ih]
    constructor
    · rintro (h | ⟨j, hj, h1, h2⟩)
      · exact ⟨0, Nat.succ_pos _, by simp [h], by simp [h]⟩
      · exact ⟨j + 1, Nat.succ_lt_succ hj, h1, by omega⟩
    · rintro ⟨j, hj, h1, h2⟩
      cases j with
      | zero =>
        left
        have hp : p = (p.1, p.2) := rfl
        rw [hp, h1]
        simp only [List.get]
        rw [h2, Nat.add_zero]
      | succ j2 =>
        right
        exact ⟨j2, Nat.lt_of_succ_lt_succ hj, h1, by omega⟩

theorem snd_mem_idxed_ge {α : Type} {l : List α} {i : ℕ} {p : α × ℕ}
    (hp : p ∈ idxed l i) : i ≤ p.2 := by
  rcases mem_idxed.mp hp with ⟨j, hj, _, h2⟩
  omega

theorem pairwise_idxed_snd {α : Type} (l : List α) (i : ℕ) :
    (idxed l i).Pairwise (fun p q => p.2 < q.2) := by
  induction l generalizing i with
  | nil => exact List.Pairwise.nil
  | cons a t ih =>
    refine List.Pairwise.cons ?_ (ih (i + 1))
    intro q hq
    have := snd_mem_idxed_ge hq
    show i < q.2
    omega

theorem counterList_map_fst {α : Type} [DecidableEq α] (l : List α) :
    (counterList l).map Prod.fst = firstOccs l := by
  unfold counterList
  rw [List.map_map]
  have h : (Prod.fst ∘ fun a => (a, l.count a)) = id := rfl
  rw [h, List.map_id]

theorem pairwise_counterList {α : Type} [DecidableEq α] (l : List α) :
    (counterList l).Pairwise (fun a b => idxOf a.1 l < idxOf b.1 l) := by
  unfold counterList
  rw [List.pairwise_map]
  exact pairwise_idxOf_firstOccsAux [] l

theorem idxed_counter_order {α : Type} [DecidableEq α] {l : List α}
    {p q : (α × ℕ) × ℕ} (hp : p ∈ idxed (counterList l) 0)
    (hq : q ∈ idxed (counterList l) 0) (hlt : p.2 < q.2) :
    idxOf p.1.1 l < idxOf q.1.1 l := by
  rcases mem_idxed.mp hp with ⟨j1, hj1, he1, hi1⟩
  rcases mem_idxed.mp hq with ⟨j2, hj2, he2, hi2⟩
  have hj : (⟨j1, hj1⟩ : Fin (counterList l).length) < ⟨j2, hj2⟩ := by
    simp only [Fin.mk_lt_mk]
    omega
  have h2 := List.pairwise_iff_get.mp (pairwise_counterList l) ⟨j1, hj1⟩ ⟨j2, hj2⟩ hj
  rw [he1, he2]
  exact h2

theorem idxOf_filter_lt {α : Type} [DecidableEq α] (p : α → Bool) (l : List α) (a b : α)
    (ha : a ∈ l.filter p) (hb : b ∈ l.filter p)
    (h : idxOf a (l.filter p) < idxOf b (l.filter p)) : idxOf a l < idxOf b l := by
  induction l with
  | nil => simp at ha
  | cons x t ih =>
    by_cases hp : p x = true
    · rw [List.filter_cons_of_pos hp] at ha hb h
      by_cases hxa : x = a
      · subst hxa
        by_cases hxb : x = b
        · subst hxb
          rw [idxOf_cons_self] at h
          exact absurd h (by omega)
        · rw [idxOf_cons_self, idxOf_cons_ne t hxb]
          omega
      · by_cases hxb : x = b
        · subst hxb
          rw [idxOf_cons_ne _ hxa, idxOf_cons_self] at h
          exact absurd h (by omega)
        · rw [idxOf_cons_ne _ hxa, idxOf_cons_ne _ hxb] at h
          rw [idxOf_cons_ne t hxa, idxOf_cons_ne t hxb]
          have h2 := ih (List.mem_of_ne_of_mem (fun he => hxa he.symm) ha)
            (List.mem_of_ne_of_mem (fun he => hxb he.symm) hb) (by omega)
          omega
    · rw [List.filter_cons_of_neg (by simpa using hp)] at ha hb h
      have hxa : x ≠ a := fun he => hp (he ▸ List.of_mem_filter ha)
      have hxb : x ≠ b := fun he => hp (he ▸ List.of_mem_filter hb)
      rw [idxOf_cons_ne t hxa, idxOf_cons_ne t hxb]
      have h2 := ih ha hb h
      omega

theorem count_add_countP_not {α : Type} [DecidableEq α] (x : α) (seen : List α)
    (t : List α) (hx : x ∉ seen) :
    t.count x + t.countP (fun a => decide (a ∉ x :: seen)) =
      t.countP (fun a => decide (a ∉ seen)) := by
  induction t with
  | nil => rfl
  | cons y t2 ih =>
    rw [List.count_cons, List.countP_cons, List.countP_cons]
    by_cases hyx : y = x
    · subst hyx
      have e2 : decide (y ∉ y :: seen) = false := by simp
      have e3 : decide (y ∉ seen) = true := by simp [hx]
      simp only [e2, e3, Bool.false_eq_true, if_false, if_true, beq_self_eq_true]
      omega
    · have e1 : (y == x) = false := by simp [hyx]
      by_cases hys : y ∈ seen
      · have e2 : decide (y ∉ x :: seen) = false := by
          simp [List.mem_cons, hys]
        have e3 : decide (y ∉ seen) = false := by simp [hys]
        simp only [e1, e2, e3, Bool.false_eq_true, if_false]
        omega
      · have e2 : decide (y ∉ x :: seen) = true := by
          simp [List.mem_cons, hyx, hys]
        have e3 : decide (y ∉ seen) = true := by simp [hys]
        simp only [e1, e2, e3, Bool.false_eq_true, if_false, if_true]
        omega

theorem sum_counts_firstOccsAux {α : Type} [DecidableEq α] (t : List α) (seen : List α) :
    ((firstOccsAux seen t).map (fun a => t.count a)).sum =
      t.countP (fun a => decide (a ∉ seen)) := by
  induction t generalizing seen with
  | nil => simp [firstOccsAux]
  | cons x t2 ih =>
    by_cases hx : x ∈ seen
    · rw [firstOccsAux, if_pos hx]
      have hmapeq : (firstOccsAux seen t2).map (fun a => (x :: t2).count a) =
          (firstOccsAux seen t2).map (fun a => t2.count a) := by
        refine List.map_congr_left ?_
        intro a hamem
        have ha2 := (mem_firstOccsAux seen t2 a).mp hamem
        have hax : x ≠ a := fun he => ha2.2 (he ▸ hx)
        rw [List.count_cons_of_ne (fun he => hax he.symm)]
      rw [hmapeq, ih seen, List.countP_cons]
      have e2 : decide (x ∉ seen) = false := by simp [hx]
      simp only [e2, Bool.false_eq_true, if_false]
      omega
    · rw [firstOccsAux, if_neg hx]
      rw [List.map_cons, List.sum_cons]
      have hmapeq : (firstOccsAux (x :: seen) t2).map (fun a => (x :: t2).count a) =
          (firstOccsAux (x :: seen) t2).map (fun a => t2.count a) := by
        refine List.map_congr_left ?_
        intro a hamem
        have ha2 := (mem_firstOccsAux (x :: seen) t2 a).mp hamem
        have hax : x ≠ a := fun he => ha2.2 (he ▸ List.mem_cons_self x seen)
        rw [List.count_cons_of_ne (fun he => hax he.symm)]
      rw [hmapeq, ih (x :: seen), List.count_cons_self, List.countP_cons]
      have e2 : decide (x ∉ seen) = true := by simp [hx]
      simp only [e2, eq_self_iff_true, if_true]
      have h3 := count_add_countP_not x seen t2 hx
      omega

theorem sum_counterList {α : Type} [DecidableEq α] (l : List α) :
    ((counterList l).map Prod.snd).sum = l.length := by
  unfold counterList firstOccs
  rw [List.map_map]
  have h1 : (Prod.snd ∘ fun a => (a, l.count a)) = fun a => l.count a := rfl
  rw [h1, sum_counts_firstOccsAux l []]
  simp

theorem leMC_total (a b : (String × ℕ) × ℕ) : leMC a b = true ∨ leMC b a = true := by
  simp only [leMC, Bool.or_eq_true, Bool.and_eq_true, decide_eq_true_eq]
  omega

theorem leMC_trans (a b c : (String × ℕ) × ℕ) (h1 : leMC a b = true)
    (h2 : leMC b c = true) : leMC a c = true := by
  simp only [leMC, Bool.or_eq_true, Bool.and_eq_true, decide_eq_true_eq] at h1 h2 ⊢
  omega

theorem mostCommon_spec (n : ℕ) (l : List String) :
    (mostCommon n l).length ≤ n ∧
    ((mostCommon n l).map Prod.fst).Nodup ∧
    (∀ e ∈ mostCommon n l, e.1 ∈ l) ∧
    (mostCommon n l).Pairwise
      (fun a b => b.2 ≤ a.2 ∧ (a.2 = b.2 → idxOf a.1 l < idxOf b.1 l)) := by
  have hunf : mostCommon n l =
      ((sortLe leMC (idxed (counterList l) 0)).map Prod.fst).take n := rfl
  have hperm : List.Perm (sortLe leMC (idxed (counterList l) 0)) (idxed (counterList l) 0) :=
    perm_sortLe _ _
  have hsorted := pairwise_sortLe leMC_total leMC_trans (idxed (counterList l) 0)
  have hsndnodup : ((sortLe leMC (idxed (counterList l) 0)).map Prod.snd).Nodup := by
    refine (List.Perm.nodup_iff (List.Perm.map Prod.snd hperm)).mpr ?_
    refine List.pairwise_map.mpr ?_
    exact (pairwise_idxed_snd (counterList l) 0).imp (fun h => Nat.ne_of_lt h)
  have hsnd_ne : (sortLe leMC (idxed (counterList l) 0)).Pairwise (fun p q => p.2 ≠ q.2) :=
    List.pairwise_map.mp hsndnodup
  have hfinal : (sortLe leMC (idxed (counterList l) 0)).Pairwise
      (fun p q => q.1.2 ≤ p.1.2 ∧ (p.1.2 = q.1.2 → idxOf p.1.1 l < idxOf q.1.1 l)) := by
    refine List.Pairwise.imp_of_mem ?_ (hsorted.and hsnd_ne)
    intro p q hp hq hpq
    obtain ⟨hle, hne⟩ := hpq
    have hp2 := (List.Perm.mem_iff hperm).mp hp
    have hq2 := (List.Perm.mem_iff hperm).mp hq
    simp only [leMC, Bool.or_eq_true, Bool.and_eq_true, decide_eq_true_eq] at hle
    constructor
    · omega
    · intro heq
      have hidx : p.2 < q.2 := by omega
      exact idxed_counter_order hp2 hq2 hidx
  refine ⟨?_, ?_, ?_, ?_⟩
  · rw [hunf, List.length_take]
    exact min_le_left _ _
  · have hw : ((sortLe leMC (idxed (counterList l) 0)).map (fun p => p.1.1)).Nodup := by
      refine (List.Perm.nodup_iff (List.Perm.map _ hperm)).mpr ?_
      have h1 : (idxed (counterList l) 0).map (fun p => p.1.1) =
          ((idxed (counterList l) 0).map Prod.fst).map Prod.fst := by
        rw [List.map_map]
        rfl
      rw [h1, idxed_map_fst, counterList_map_fst]
      exact nodup_firstOccsAux [] l
    have h2 : (mostCommon n l).map Prod.fst =
        ((sortLe leMC (idxed (counterList l) 0)).map (fun p => p.1.1)).take n := by
      rw [hunf, ← List.map_take, ← List.map_take, List.map_map]
      rfl
    rw [h2]
    exact hw.sublist (List.take_sublist _ _)
  · intro e he
    rw [hunf] at he
    have he2 : e ∈ (sortLe leMC (idxed (counterList l) 0)).map Prod.fst :=
      (List.take_sublist _ _).mem he
    rcases List.mem_map.mp he2 with ⟨p, hp, rfl⟩
    have hp2 := (List.Perm.mem_iff hperm).mp hp
    rcases mem_idxed.mp hp2 with ⟨j, hj, he1, _⟩
    have hmem : p.1 ∈ counterList l := by
      rw [he1]
      exact List.get_mem _ _ _
    have : p.1.1 ∈ (counterList l).map Prod.fst := List.mem_map_of_mem _ hmem
    rw [counterList_map_fst] at this
    exact ((mem_firstOccsAux [] l p.1.1).mp this).1
  · rw [hunf]
    refine List.Pairwise.sublist (List.take_sublist _ _) ?_
    exact List.pairwise_map.mpr hfinal

theorem keyStr_pyOfUser (u : Option ℤ) : keyStr (pyOfUser u) = some (userKeyStr u) := by
  cases u <;> rfl

theorem dumpLoadDict_perUserPy (l : List (Option ℤ × ℕ)) :
    dumpLoadDict (perUserPy l) = some (perUserPyStr l) := by
  induction l with
  | nil => rfl
  | cons p rest ih =>
    obtain ⟨u, c⟩ := p
    simp only [perUserPy, perUserPyStr, dumpLoadDict, keyStr_pyOfUser, ih]
    rfl

theorem dumpLoadList_topWordsPy (l : List (String × ℕ)) :
    dumpLoadList (topWordsPy l) = some (topWordsPy l) := by
  induction l with
  | nil => rfl
  | cons p rest ih =>
    obtain ⟨w, c⟩ := p
    have hv : dumpLoad (.pdict (.cons (.pstr "word") (.pstr w)
        (.cons (.pstr "count") (.pint (c : ℤ)) .nil))) =
      some (.pdict (.cons (.pstr "word") (.pstr w)
        (.cons (.pstr "count") (.pint (c : ℤ)) .nil))) := rfl
    simp only [topWordsPy, dumpLoadList, hv, ih]

theorem dumpLoad_pySummary (s : PostsSummary) :
    dumpLoad (pySummaryOf s) = some (pySummaryStrKeys s) := by
  unfold pySummaryOf pySummaryStrKeys
  simp only [dumpLoad, dumpLoadDict, keyStr, dumpLoadDict_perUserPy, dumpLoadList_topWordsPy]

/-- C1 (counterexample): on a table whose only numeric column `1958` has no
digit-valued cell, the summary is `some []`: the column receives no entry at
all instead of the claimed `{months_counted := 0, total := 0, avg := 0.0}`,
because `per_year_values` only acquires a key when a value is appended. -/
theorem c1_counterexample :
    yearsOf rowsNoDigit = ["1958"] ∧
    (∀ r ∈ rowsNoDigit, pyIsDigits (pyStrip (rowGetD r "1958" "")) = false) ∧
    ¬ (∀ s, process_airtravel rowsNoDigit = some s →
        lookupA "1958" s = some (YearStats.mk 0 0 0)) := by
  refine ⟨by decide, by decide, ?_⟩
  intro h
  have h2 := h [] rfl
  exact Option.noConfusion h2

/-- C1 (amended): a numeric column in which no row has a digit-only value
receives no summary entry at all (its key is absent from the summary), and
the aggregator still succeeds on such input. -/
theorem c1_empty_column_absent (rows : List Row) (y : String) (hne : rows ≠ [])
    (hy : y ∈ yearsOf rows)
    (hall : ∀ r ∈ rows, pyIsDigits (pyStrip (rowGetD r y "")) = false) :
    ∃ s, process_airtravel rows = some s ∧ lookupA y s = Option.none := by
  cases rows with
  | nil => exact absurd rfl hne
  | cons r0 rest =>
    refine ⟨_, rfl, ?_⟩
    rw [lookupA_map_stats, lookupA_collectVals_nodigit _ _ _ hall]
    rfl

/-- C1 (witness): the amended statement evaluated on the concrete table. -/
theorem c1_empty_column_absent_witness :
    ∃ s, process_airtravel rowsNoDigit = some s ∧ lookupA "1958" s = Option.none :=
  c1_empty_column_absent rowsNoDigit "1958" (by decide) (by decide) (by decide)

/-- C2 (counterexample): on a table with numeric columns `1959` (one digit
cell) and `1960` (no digit cell), the summary has no entry for `1960` at
all, contradicting the claim that every numeric column has an entry (with
`months_counted = 0` and `avg = 0.0` when no cell parses). -/
theorem c2_counterexample :
    yearsOf rowsMixed = ["1959", "1960"] ∧
    (∀ r ∈ rowsMixed, pyIsDigits (pyStrip (rowGetD r "1960" "")) = false) ∧
    ¬ (∀ s, process_airtravel rowsMixed = some s →
        ∃ st, lookupA "1960" s = some st) := by
  refine ⟨by decide, by decide, ?_⟩
  intro h
  rcases h _ rfl with ⟨st, hst⟩
  exact Option.noConfusion hst

/-- C2 (amended): for every numeric column with at least one digit-valued
cell (and a duplicate-free column set, as Python dict keys are), the
summary entry holds the count of digit cells, their sum, and the
half-even-rounded mean to 2 decimals; columns with no digit cell are
absent (see C1). -/
theorem c2_column_stats (rows : List Row) (y : String) (hne : rows ≠ [])
    (hy : y ∈ yearsOf rows) (hnd : (yearsOf rows).Nodup)
    (hsome : digitVals y rows ≠ []) :
    ∃ s, process_airtravel rows = some s ∧
      lookupA y s = some (YearStats.mk (digitVals y rows).length (digitVals y rows).sum
        (round2 (((digitVals y rows).sum : ℚ) / ((digitVals y rows).length : ℚ)))) := by
  cases rows with
  | nil => exact absurd rfl hne
  | cons r0 rest =>
    refine ⟨_, rfl, ?_⟩
    have hie : (digitVals y (r0 :: rest)).isEmpty = false := by
      cases h : digitVals y (r0 :: rest) with
      | nil => exact absurd h hsome
      | cons a t => rfl
    have hcond : ¬((digitVals y (r0 :: rest)).isEmpty = true) := by simp [hie]
    rw [lookupA_map_stats, lookupA_collectVals _ _ _ hy hnd, if_neg hcond]
    simp only [Option.map]
    unfold mkYearStats meanQ
    rw [if_neg hcond]

/-- C2 (witness): the amended statement evaluated on a concrete table. -/
theorem c2_column_stats_witness :
    ∃ s, process_airtravel rowsOne = some s ∧
      lookupA "1958" s = some (YearStats.mk (digitVals "1958" rowsOne).length
        (digitVals "1958" rowsOne).sum
        (round2 (((digitVals "1958" rowsOne).sum : ℚ) /
          ((digitVals "1958" rowsOne).length : ℚ)))) :=
  c2_column_stats rowsOne "1958" (by decide) (by decide) (by decide) (by decide)

/-- C4: on an empty row sequence the aggregator fails (Python raises at
`rows[0]`; the spec files this failure as `InputError`), modelled as `none`. -/
theorem c4_empty_rows_fail : process_airtravel [] = Option.none := rfl

/-- C10: every key of the summary is a numeric-column label of the first
row with at least one digit-valued cell, every entry counts at least one
month, and the average of every entry is the rounded mean of its values (the
`avg = 0.0` branch for an empty value list is never taken). -/
theorem c10_summary_invariants (rows : List Row) (s : List (String × YearStats))
    (y : String) (stats : YearStats) (hs : process_airtravel rows = some s)
    (hmem : (y, stats) ∈ s) :
    y ∈ yearsOf rows ∧
    (∃ r ∈ rows, pyIsDigits (pyStrip (rowGetD r y "")) = true) ∧
    1 ≤ stats.months_counted ∧
    stats.avg_per_month =
      round2 ((stats.total_passengers : ℚ) / (stats.months_counted : ℚ)) := by
  cases rows with
  | nil => exact Option.noConfusion hs
  | cons r0 rest =>
    have hseq := Option.some.inj hs
    rw [← hseq] at hmem
    rcases List.mem_map.mp hmem with ⟨⟨y2, vs⟩, hmem2, heq⟩
    have hy2 : y2 = y := congrArg Prod.fst heq
    have hstats : mkYearStats vs = stats := congrArg Prod.snd heq
    subst hy2
    obtain ⟨hyy, hvs, r, hr, hdig⟩ := mem_collectVals hmem2
    subst hstats
    refine ⟨hyy, ⟨r, hr, hdig⟩, ?_, ?_⟩
    · have := List.length_pos.mpr hvs
      simpa [mkYearStats] using this
    · have hie : vs.isEmpty = false := by
        cases h : vs with
        | nil => exact absurd h hvs
        | cons a t => rfl
      show (if vs.isEmpty then 0 else round2 (meanQ vs)) = _
      rw [if_neg (by simp [hie])]
      unfold meanQ
      rfl

/-- C10 (witness): the invariants evaluated on a concrete table. -/
theorem c10_summary_invariants_witness :
    "1958" ∈ yearsOf rowsOne ∧
    (∃ r ∈ rowsOne, pyIsDigits (pyStrip (rowGetD r "1958" "")) = true) ∧
    1 ≤ (mkYearStats [340]).months_counted ∧
    (mkYearStats [340]).avg_per_month =
      round2 (((mkYearStats [340]).total_passengers : ℚ) /
        ((mkYearStats [340]).months_counted : ℚ)) :=
  c10_summary_invariants rowsOne _ "1958" (mkYearStats [340]) rfl
    (List.mem_singleton.mpr rfl)

/-- C3 (counterexample): for a single post with `userId = 1` the round trip
is not an equal structure: `json.dump` writes the integer key `1` of
`posts_per_user` as the string `"1"`, and Python `==` does not identify
`{1: 1}` with `{"1": 1}` (key order plays no role in this comparison). -/
theorem c3_counterexample :
    ¬ ∃ r, dumpLoad (pySummaryOf (process_posts postsOne)) = some r ∧
        pyEq r (pySummaryOf (process_posts postsOne)) = true := by
  rintro ⟨r, h1, h2⟩
  have hval : dumpLoad (pySummaryOf (process_posts postsOne)) =
      some (pySummaryStrKeys (process_posts postsOne)) := rfl
  rw [hval] at h1
  have hr := Option.some.inj h1
  rw [← hr] at h2
  have hf : pyEq (pySummaryStrKeys (process_posts postsOne))
      (pySummaryOf (process_posts postsOne)) = false := rfl
  rw [hf] at h2
  exact Bool.noConfusion h2

/-- C3 (amended): serializing the posts summary with the JSON writer and
parsing it back yields exactly the original structure with every
`posts_per_user` key replaced by the string `json.dump` writes for it
(`str(userId)`, or `"null"` for a missing id); all other parts, including
`top_words` order, survive unchanged. -/
theorem c3_round_trip_stringified (posts : List Post) :
    dumpLoad (pySummaryOf (process_posts posts)) =
      some (pySummaryStrKeys (process_posts posts)) :=
  dumpLoad_pySummary (process_posts posts)

/-- C5: both top-word lists respect their caps (15 for posts, 20 for text),
contain no repeated word, and are ordered by count descending with ties in
first-occurrence order of the tokenized stream. -/
theorem c5_top_words_shape (posts : List Post) (text : String) :
    ((process_posts posts).top_words.length ≤ 15 ∧
      ((process_posts posts).top_words.map Prod.fst).Nodup ∧
      (process_posts posts).top_words.Pairwise (fun a b => b.2 ≤ a.2 ∧
        (a.2 = b.2 → idxOf a.1 (tokenize (postsAllText posts)) <
          idxOf b.1 (tokenize (postsAllText posts))))) ∧
    ((process_text_report text).top_words.length ≤ 20 ∧
      ((process_text_report text).top_words.map Prod.fst).Nodup ∧
      (process_text_report text).top_words.Pairwise (fun a b => b.2 ≤ a.2 ∧
        (a.2 = b.2 → idxOf a.1 (tokenize text) < idxOf b.1 (tokenize text)))) := by
  constructor
  · obtain ⟨hlen, hnodup, hmem, hpair⟩ :=
      mostCommon_spec 15 ((tokenize (postsAllText posts)).filter (fun w => 3 < w.length))
    refine ⟨hlen, hnodup, ?_⟩
    refine List.Pairwise.imp_of_mem ?_ hpair
    intro a b ha hb hab
    refine ⟨hab.1, fun heq => ?_⟩
    exact idxOf_filter_lt _ _ _ _ (hmem a ha) (hmem b hb) (hab.2 heq)
  · obtain ⟨hlen, hnodup, hmem, hpair⟩ :=
      mostCommon_spec 20 ((tokenize text).filter (fun w => 4 < w.length))
    refine ⟨hlen, hnodup, ?_⟩
    refine List.Pairwise.imp_of_mem ?_ hpair
    intro a b ha hb hab
    refine ⟨hab.1, fun heq => ?_⟩
    exact idxOf_filter_lt _ _ _ _ (hmem a ha) (hmem b hb) (hab.2 heq)

/-- C6: `post_count` is the number of input records, and the per-user
counts sum back to it. -/
theorem c6_post_count_sum (posts : List Post) :
    (process_posts posts).post_count = posts.length ∧
    (((process_posts posts).posts_per_user).map Prod.snd).sum = posts.length := by
  refine ⟨rfl, ?_⟩
  show ((counterList (posts.map Post.userId)).map Prod.snd).sum = posts.length
  rw [sum_counterList, List.length_map]

/-- C7: the workbook has sheet "AirTravel Summary" (its header, one row per
summary entry, rows in ascending string order of the year) and sheet
"Totals Ranking" (its header, one row per entry, rows in descending order
of total passengers). -/
theorem c7_excel_sheets (summary : List (String × YearStats)) :
    (write_excel summary).1.title = "AirTravel Summary" ∧
    (write_excel summary).2.title = "Totals Ranking" ∧
    (∃ l1, List.Perm l1 summary ∧ l1.Pairwise (fun a b => a.1 ≤ b.1) ∧
      (write_excel summary).1.rows = excelHeader1 :: l1.map excelRow1) ∧
    (∃ l2, List.Perm l2 summary ∧
      l2.Pairwise (fun a b => b.2.total_passengers ≤ a.2.total_passengers) ∧
      (write_excel summary).2.rows = excelHeader2 :: l2.map excelRow2) := by
  refine ⟨rfl, rfl, ⟨sortLe leYear summary, perm_sortLe _ _, ?_, rfl⟩,
    ⟨sortLe leTotalDesc summary, perm_sortLe _ _, ?_, rfl⟩⟩
  · refine List.Pairwise.imp ?_ (pairwise_sortLe ?_ ?_ summary)
    · intro a b h
      exact of_decide_eq_true h
    · intro a b
      rcases le_total a.1 b.1 with h | h
      · exact Or.inl (decide_eq_true h)
      · exact Or.inr (decide_eq_true h)
    · intro a b c h1 h2
      exact decide_eq_true (le_trans (of_decide_eq_true h1) (of_decide_eq_true h2))
  · refine List.Pairwise.imp ?_ (pairwise_sortLe ?_ ?_ summary)
    · intro a b h
      exact of_decide_eq_true h
    · intro a b
      rcases le_total a.2.total_passengers b.2.total_passengers with h | h
      · exact Or.inr (decide_eq_true h)
      · exact Or.inl (decide_eq_true h)
    · intro a b c h1 h2
      exact decide_eq_true (le_trans (of_decide_eq_true h2) (of_decide_eq_true h1))

/-- C8: the CSV writer emits exactly the header row followed by one row per
summary entry in the own (insertion) order of the summary, and the header alone
for an empty summary. -/
theorem c8_csv_rows (summary : List (String × YearStats)) :
    write_csv_yearly_totals summary = csvHeader :: summary.map csvRowOf ∧
    write_csv_yearly_totals [] = [csvHeader] :=
  ⟨rfl, rfl⟩

/-- C9: records whose `title` or `body` field is missing are processed
exactly as if the missing field were the empty string. -/
theorem c9_missing_fields_default (posts : List Post) :
    process_posts (posts.map (fun p =>
      { userId := p.userId, title := some (p.title.getD ""),
        body := some (p.body.getD "") })) = process_posts posts := by
  have h3 : postsAllText (posts.map (fun p =>
      ({ userId := p.userId, title := some (p.title.getD ""),
         body := some (p.body.getD "") } : Post))) = postsAllText posts := by
    unfold postsAllText
    rw [List.map_map]
    rfl
  unfold process_posts
  rw [List.length_map, List.map_map, h3]
  rfl
